import Mathlib

/-!
Verification of the dynamic-array core in `src/advanced-vector/vector.h`
(`RawMemory<T>` and `Vector<T>`), shallowly embedded: the constructed
elements at logical positions `[0, size_)` are a list, `data_.Capacity()`
is a natural number.  Each public operation of `Vector<T>` is translated
at the level of its observable effect on (elements, capacity), with a
separate instrumented model for the fallible copy paths and a small
address/heap model for storage independence.
-/

namespace AdvVector

/-- Observable state of a `Vector<T>`: `elems` holds the constructed elements
at logical positions `[0, size_)` of the buffer, `cap` is `data_.Capacity()`. -/
structure Vec (α : Type) where
  elems : List α
  cap : Nat
deriving DecidableEq

variable {α : Type}

/-- The `size_` field: number of constructed elements. -/
def Vec.size (v : Vec α) : Nat := v.elems.length

/-- Container invariant `length ≤ capacity`.  That elements are constructed
exactly on `[0, length)` is built into the representation: `elems` is by
definition the constructed region of the buffer. -/
def Vec.WF (v : Vec α) : Prop := v.size ≤ v.cap

instance (v : Vec α) : Decidable v.WF :=
  inferInstanceAs (Decidable (v.size ≤ v.cap))

/-- Default constructor `Vector()`: no buffer, `size_ = 0`. -/
def Vec.empty : Vec α := ⟨[], 0⟩

/-- The new capacity chosen by every growth site in the source:
`size_ == 0 ? 1 : size_ * 2`. -/
def growCap (n : Nat) : Nat := if n = 0 then 1 else n * 2

/-- Checked element access `operator[]`: `assert(index < size_)` then
`data_[index]`.  The assertion is modelled by yielding no value when the
index is out of range. -/
def Vec.get? (v : Vec α) (i : Nat) : Option α :=
  if i < v.size then v.elems[i]? else none

/-- Sized constructor `Vector(size_t size)`: buffer of capacity `size`,
value-constructs `size` elements. -/
def Vec.ofSize [Inhabited α] (n : Nat) : Vec α := ⟨List.replicate n default, n⟩

/-- Copy constructor `Vector(const Vector&)`: buffer of capacity
`other.size_`, copy-constructs the `other.size_` elements. -/
def Vec.copyCtor (v : Vec α) : Vec α := ⟨v.elems, v.size⟩

/-- Copy assignment `operator=(const Vector&)` between distinct objects.
If `rhs.size_ > Capacity()` a full copy is built and swapped in; otherwise
the common prefix is copied element-wise with `std::copy`, surplus trailing
elements are destroyed, or missing trailing elements are copy-constructed. -/
def Vec.copyAssign (dst rhs : Vec α) : Vec α :=
  if rhs.size > dst.cap then
    rhs.copyCtor
  else
    let ns := min dst.size rhs.size
    let copied := rhs.elems.take ns ++ dst.elems.drop ns
    if rhs.size < dst.size then ⟨copied.take rhs.size, dst.cap⟩
    else ⟨copied ++ rhs.elems.drop dst.size, dst.cap⟩

/-- Move constructor `Vector(Vector&&)`: the fresh object is
default-initialized and then `Swap(rhs)` runs.  The result is the pair
(destination, source-after-move). -/
def Vec.moveCtor (src : Vec α) : Vec α × Vec α := (src, ⟨[], 0⟩)

/-- Move assignment `operator=(Vector&&)` between distinct objects: a plain
`Swap(rhs)` of buffers and sizes.  The result is the pair
(destination, source-after-move). -/
def Vec.moveAssign (dst src : Vec α) : Vec α × Vec α := (src, dst)

/-- Member `Swap`: exchanges buffers and sizes. -/
def Vec.swap (a b : Vec α) : Vec α × Vec α := (b, a)

/-- `Reserve(new_capacity)`: no-op when `new_capacity ≤ Capacity()`,
otherwise a buffer of exactly `new_capacity`, all elements transferred. -/
def Vec.reserve (v : Vec α) (n : Nat) : Vec α :=
  if n ≤ v.cap then v else ⟨v.elems, n⟩

/-- `Resize(new_size)`: shrinking destroys the tail `[new_size, size_)`;
growing reserves and value-constructs the new tail. -/
def Vec.resize [Inhabited α] (v : Vec α) (n : Nat) : Vec α :=
  if n < v.size then ⟨v.elems.take n, v.cap⟩
  else ⟨(v.reserve n).elems ++ List.replicate (n - v.size) default, (v.reserve n).cap⟩

/-- `EmplaceBack` / `PushBack`, observable effect: the new element appears at
position `size_`; a full vector first grows to `growCap size_`.  (The
instrumented fallible copy path of the growth cycle is modelled separately
by `emplaceBackFullCopy`.) -/
def Vec.emplaceBack (v : Vec α) (x : α) : Vec α :=
  if v.size < v.cap then ⟨v.elems ++ [x], v.cap⟩
  else ⟨v.elems ++ [x], growCap v.size⟩

/-- `PopBack` on a non-empty vector:
`std::destroy_at(data_.GetAddress() + size_ - 1); --size_;`. -/
def Vec.popBack (v : Vec α) : Vec α := ⟨v.elems.dropLast, v.cap⟩

/-- The `--size_` performed unconditionally by `PopBack` and `Erase`:
a `size_t` decrement, i.e. subtraction of one modulo `2^64`.  The source
contains no emptiness or bounds check before it. -/
def sizeDecrement (sz : Nat) : Nat := (sz + (2 ^ 64 - 1)) % 2 ^ 64

/-! ### The move-vs-copy condition at the three reallocation sites

Each of `Reserve`, `EmplaceBack` and the `Emplace` reallocation path guards
its transfer with the same
`if constexpr (std::is_nothrow_move_constructible_v<T> || !std::is_copy_constructible_v<T>)`.
The two compile-time facts about the element type are modelled as two
booleans. -/

/-- Transfer condition of `Reserve`: move when
`is_nothrow_move_constructible_v<T> || !is_copy_constructible_v<T>`. -/
def reserveUsesMove (nothrowMove copyCtorAvail : Bool) : Bool :=
  nothrowMove || !copyCtorAvail

/-- Transfer condition of the `EmplaceBack` growth cycle (same text in the
source as in `Reserve`). -/
def emplaceBackUsesMove (nothrowMove copyCtorAvail : Bool) : Bool :=
  nothrowMove || !copyCtorAvail

/-- Transfer condition choosing `ReallocateWithMove` vs `ReallocateWithCopy`
in `Emplace` (same text in the source as in `Reserve`). -/
def emplaceUsesMove (nothrowMove copyCtorAvail : Bool) : Bool :=
  nothrowMove || !copyCtorAvail

/-- The rule as the specification words it: transfer by move exactly when
the element type's move construction cannot fail. -/
def claimUsesMove (nothrowMove _copyCtorAvail : Bool) : Bool :=
  nothrowMove

/-! ### Growth from the empty vector -/

/-- `N` consecutive `EmplaceBack` calls starting from a default-constructed
vector (the appended values are immaterial for length and capacity). -/
def appendN : Nat → Vec Nat
  | 0 => ⟨[], 0⟩
  | n + 1 => (appendN n).emplaceBack n

lemma emplaceBack_elems (v : Vec α) (x : α) :
    (v.emplaceBack x).elems = v.elems ++ [x] := by
  unfold Vec.emplaceBack
  split <;> rfl

lemma emplaceBack_size (v : Vec α) (x : α) :
    (v.emplaceBack x).size = v.size + 1 := by
  simp [Vec.size, emplaceBack_elems]

lemma growCap_gt (n : Nat) : n < growCap n := by
  unfold growCap; split <;> omega

lemma growCap_eq_max (n : Nat) : growCap n = max 1 (2 * n) := by
  unfold growCap; split <;> omega

lemma emplaceBack_cap_mono (v : Vec α) (x : α) :
    v.cap ≤ (v.emplaceBack x).cap := by
  unfold Vec.emplaceBack
  split
  · exact Nat.le_refl _
  · next h => exact Nat.le_trans (Nat.le_of_not_lt h) (Nat.le_of_lt (growCap_gt _))

lemma emplaceBack_cap_full (v : Vec α) (x : α) (h : v.size = v.cap) :
    (v.emplaceBack x).cap = growCap v.size := by
  unfold Vec.emplaceBack
  split
  · next hlt => omega
  · rfl

lemma appendN_size (n : Nat) : (appendN n).size = n := by
  induction n with
  | zero => rfl
  | succ k ih => simp [appendN, emplaceBack_size, ih]

lemma appendN_cap_pow (n : Nat) (h : 1 ≤ n) :
    ∃ k, (appendN n).cap = 2 ^ k ∧ n ≤ (appendN n).cap := by
  induction n with
  | zero => omega
  | succ m ih =>
    by_cases hm : m = 0
    · subst hm
      exact ⟨0, rfl, by decide⟩
    · obtain ⟨k, hk, hle⟩ := ih (by omega)
      have hsz : (appendN m).size = m := appendN_size m
      show ∃ k, ((appendN m).emplaceBack m).cap = 2 ^ k ∧
        m + 1 ≤ ((appendN m).emplaceBack m).cap
      by_cases hfull : (appendN m).size < (appendN m).cap
      · have hcap : ((appendN m).emplaceBack m).cap = (appendN m).cap := by
          unfold Vec.emplaceBack
          rw [if_pos hfull]
        have hlt : m < (appendN m).cap := by omega
        exact ⟨k, by rw [hcap, hk], by omega⟩
      · have hcap : ((appendN m).emplaceBack m).cap = growCap m := by
          unfold Vec.emplaceBack
          rw [if_neg hfull, hsz]
        have hcm : (appendN m).cap = m := by omega
        have hgrow : growCap m = m * 2 := by
          unfold growCap
          rw [if_neg hm]
        have hpow : 2 ^ (k + 1) = 2 ^ k * 2 := pow_succ 2 k
        exact ⟨k + 1, by rw [hcap, hgrow]; omega, by rw [hcap, hgrow]; omega⟩

/-! ### Claim theorems: moves, contract checks, move-vs-copy, growth -/

/-- Claim C1 counterexample: move assignment is implemented as `Swap(rhs)`,
so after `dst = std::move(src)` with `dst = {elems := [0], cap := 1}` and
`src` empty, the moved-from source holds the destination's previous one
element — its length is 1 and its capacity 1, not the 0 and 0 the claim
requires of every move assignment. -/
theorem moveAssign_not_emptying_cex :
    ((⟨[0], 1⟩ : Vec Nat).moveAssign ⟨[], 0⟩).2.size = 1 ∧
    ((⟨[0], 1⟩ : Vec Nat).moveAssign ⟨[], 0⟩).2.cap = 1 := by
  exact ⟨rfl, rfl⟩

/-- Claim C1, amended: move construction transfers the source's storage and
length to the destination and leaves the source with length 0 and capacity 0;
move assignment (between distinct vectors) swaps the two objects, so the
destination becomes observably equal to the pre-move source while the source
is left holding the destination's previous storage and length — a valid,
reusable state, but not necessarily empty.  Both are total (never fail). -/
theorem move_transfer_amended (src dst : Vec α) :
    src.moveCtor.1 = src ∧
    src.moveCtor.2.size = 0 ∧
    src.moveCtor.2.cap = 0 ∧
    (dst.moveAssign src).1 = src ∧
    (dst.moveAssign src).2 = dst := by
  exact ⟨rfl, rfl, rfl, rfl, rfl⟩

/-- Claim C2 counterexample: `PopBack` contains no emptiness check; its
`--size_` on the `size_t` field executes unconditionally, so on an empty
vector the length wraps around to `2^64 - 1` — precisely the silent
wrap-around the claim says never happens. -/
theorem popBack_unchecked_cex :
    sizeDecrement 0 = 2 ^ 64 - 1 ∧ sizeDecrement 0 ≠ 0 := by
  constructor
  · norm_num [sizeDecrement]
  · norm_num [sizeDecrement]

/-- Claim C2, amended: indexing at `i ≥ length` is rejected by the
`assert(index < size_)` in `operator[]` (modelled: no value is returned),
but `PopBack` on an empty vector and `Erase` at or past the end are not
checked: both run the unconditional `size_t` decrement `--size_`, which on
an empty vector wraps the length around to `2^64 - 1`; on a non-empty
vector it decrements by one. -/
theorem contract_checks_amended (v : Vec α) (i sz : Nat)
    (hout : v.size ≤ i) (hsz : 0 < sz) (hsz2 : sz < 2 ^ 64) :
    v.get? i = none ∧
    sizeDecrement 0 = 2 ^ 64 - 1 ∧
    sizeDecrement sz = sz - 1 := by
  refine ⟨?_, by norm_num [sizeDecrement], ?_⟩
  · unfold Vec.get?
    rw [if_neg (by omega)]
  · unfold sizeDecrement
    omega

theorem contract_checks_amended_witness :
    (Vec.empty (α := Nat)).size ≤ 0 ∧ 0 < 1 ∧ 1 < 2 ^ 64 ∧
    ((Vec.empty (α := Nat)).get? 0 = none ∧
     sizeDecrement 0 = 2 ^ 64 - 1 ∧
     sizeDecrement 1 = 1 - 1) :=
  ⟨by decide, by decide, by norm_num,
   contract_checks_amended Vec.empty 0 1 (by decide) (by decide) (by norm_num)⟩

/-- Claim C4 counterexample: the source condition is
`is_nothrow_move_constructible_v<T> || !is_copy_constructible_v<T>`.  For an
element type whose move construction can fail and which is not
copy-constructible (`nothrowMove = false`, `copyCtorAvail = false`) the code
moves, while the claim's rule — move if and only if move construction cannot
fail — demands the opposite. -/
theorem useMove_not_iff_nothrow_cex :
    reserveUsesMove false false = true ∧ claimUsesMove false false = false := by
  exact ⟨rfl, rfl⟩

/-- Claim C4, amended: during every reallocation, existing elements are
transferred by move if and only if the element type's move construction is
non-throwing OR the type is not copy-constructible, and by copy otherwise;
the identical compile-time condition is used at all three reallocation sites
(`Reserve`, the `EmplaceBack` growth cycle, and the `Emplace` reallocation),
so one per-type fact decides every reallocation in the container's lifetime.
In particular a nothrow-movable type is always moved, and a copyable type
with a possibly-failing move construction is always copied. -/
theorem useMove_condition_amended (m c : Bool) :
    reserveUsesMove m c = (m || !c) ∧
    emplaceBackUsesMove m c = reserveUsesMove m c ∧
    emplaceUsesMove m c = reserveUsesMove m c ∧
    reserveUsesMove true c = true ∧
    reserveUsesMove false true = false := by
  cases m <;> cases c <;> exact ⟨rfl, rfl, rfl, rfl, rfl⟩

/-- Claim C5: starting from a default-constructed vector, after `N ≥ 1`
consecutive appends the length is `N` and the capacity is a power of two
at least `N`; the capacity never shrinks at any append; and an append on a
full vector (`size_ == Capacity()`) allocates new storage of capacity
`max(1, 2 × length)`. -/
theorem growth_doubling (N : Nat) (v : Vec Nat) (x : Nat)
    (h : 1 ≤ N) (hfull : v.size = v.cap) :
    (appendN N).size = N ∧
    (∃ k, (appendN N).cap = 2 ^ k ∧ N ≤ (appendN N).cap) ∧
    (appendN N).cap ≤ (appendN (N + 1)).cap ∧
    v.cap ≤ (v.emplaceBack x).cap ∧
    (v.emplaceBack x).cap = max 1 (2 * v.size) := by
  refine ⟨appendN_size N, appendN_cap_pow N h, ?_, emplaceBack_cap_mono v x, ?_⟩
  · exact emplaceBack_cap_mono _ _
  · rw [emplaceBack_cap_full v x hfull, growCap_eq_max]

theorem growth_doubling_witness :
    1 ≤ 3 ∧ (⟨[7], 1⟩ : Vec Nat).size = (⟨[7], 1⟩ : Vec Nat).cap ∧
    ((appendN 3).size = 3 ∧
     (∃ k, (appendN 3).cap = 2 ^ k ∧ 3 ≤ (appendN 3).cap) ∧
     (appendN 3).cap ≤ (appendN (3 + 1)).cap ∧
     (⟨[7], 1⟩ : Vec Nat).cap ≤ ((⟨[7], 1⟩ : Vec Nat).emplaceBack 5).cap ∧
     ((⟨[7], 1⟩ : Vec Nat).emplaceBack 5).cap = max 1 (2 * (⟨[7], 1⟩ : Vec Nat).size)) :=
  ⟨by decide, by decide, growth_doubling 3 ⟨[7], 1⟩ 5 (by decide) (by decide)⟩

/-! ### Emplace, Insert, Erase -/

/-- Value effect of
`std::move_backward(begin() + first, begin() + last, begin() + (last + 1))`
on a buffer `l`: positions `[first+1, last+1)` receive the old contents of
`[first, last)`; position `first` keeps its (moved-from) value. -/
def moveBackwardSeg (l : List α) (first last : Nat) : List α :=
  l.take (first + 1) ++ (l.drop first).take (last - first) ++ l.drop (last + 1)

/-- Spare-capacity path of `Emplace` (`size_ < Capacity()`, `pos ≠ end()`):
`T tmp(args...);` (the new value is materialised first), then
`new (end()) T(std::move(*(end() - 1)))` appends a copy of the last element,
`std::move_backward(begin() + index, end() - 1, end())` shifts
`[index, size_-1)` one slot later, and `data_[index] = std::move(tmp)`
stores the new value; finally `++size_`. -/
def Vec.emplaceSpare (v : Vec α) (p : Nat) (x : α) : Vec α :=
  ⟨(moveBackwardSeg (v.elems ++ [(v.elems.getLast?).getD x]) p (v.size - 1)).set p x,
    v.cap⟩

/-- Full-storage path of `Emplace` (`ReallocateWithMove` / `ReallocateWithCopy`),
observable effect: new storage of capacity `growCap size_`, the new element
constructed at offset `index` first, then the old prefix `[0, index)` and
suffix `[index, size_)` transferred around it, originals destroyed, storage
swapped.  (The instrumented fallible copy variant is `reallocWithCopy`.) -/
def Vec.emplaceRealloc (v : Vec α) (p : Nat) (x : α) : Vec α :=
  ⟨v.elems.take p ++ x :: v.elems.drop p, growCap v.size⟩

/-- `Emplace(pos, args...)` with `index = pos - begin()`: delegates to
`EmplaceBack` when `pos == end()`, otherwise takes the spare-capacity or the
reallocation path.  The returned iterator is `begin() + index`, i.e. the
new element lives at logical position `index`. -/
def Vec.emplace (v : Vec α) (p : Nat) (x : α) : Vec α :=
  if p = v.size then v.emplaceBack x
  else if v.size < v.cap then v.emplaceSpare p x
  else v.emplaceRealloc p x

/-- `Insert(pos, value)`: a direct wrapper over `Emplace(pos, value)`. -/
def Vec.insert (v : Vec α) (p : Nat) (x : α) : Vec α := v.emplace p x

/-- `Erase(pos)`: `std::move(it_pos + 1, end(), it_pos)` shifts
`[pos+1, size_)` one slot left (the slot `size_ - 1` keeps its moved-from
value), then `std::destroy_at(data_.GetAddress() + size_ - 1); --size_;`. -/
def Vec.erase (v : Vec α) (p : Nat) : Vec α :=
  ⟨((v.elems.take p ++ v.elems.drop (p + 1)) ++ v.elems.drop (v.size - 1)).dropLast,
    v.cap⟩

/-- `Insert(pos, value)` where `value` is a reference `a[j]` into the same
vector.  Each branch reads the buffer at exactly the program point where the
source copy-constructs from `value`: in the `pos == end()` branch the new
element is constructed directly from the untouched buffer; in the
spare-capacity branch `T tmp(value)` runs before any shifting; in the
reallocation branch the new element is constructed into the fresh buffer
while the old buffer is still untouched. -/
def Vec.insertSelf [Inhabited α] (v : Vec α) (p j : Nat) : Vec α :=
  if p = v.size then v.emplaceBack (v.elems.getD j default)
  else if v.size < v.cap then v.emplaceSpare p (v.elems.getD j default)
  else v.emplaceRealloc p (v.elems.getD j default)

lemma Vec.extEq (a b : Vec α) (h1 : a.elems = b.elems) (h2 : a.cap = b.cap) :
    a = b := by
  cases a; cases b; cases h1; cases h2; rfl

lemma emplaceSpare_elems (v : Vec α) (p : Nat) (x : α) (hp : p < v.size) :
    (v.emplaceSpare p x).elems = v.elems.take p ++ x :: v.elems.drop p := by
  obtain ⟨l, c⟩ := v
  have hp' : p < l.length := hp
  have hne : l ≠ [] := List.ne_nil_of_length_pos (by omega)
  have hlast : l.getLast? = some (l.getLast hne) :=
    List.getLast?_eq_getLast_of_ne_nil hne
  show (moveBackwardSeg (l ++ [(l.getLast?).getD x]) p (l.length - 1)).set p x
      = l.take p ++ x :: l.drop p
  rw [hlast, Option.getD_some]
  unfold moveBackwardSeg
  rw [List.take_append_of_le_length (by omega)]
  rw [List.drop_append_of_le_length (Nat.le_of_lt hp')]
  rw [List.take_append_of_le_length (by rw [List.length_drop]; omega)]
  rw [show l.length - 1 + 1 = l.length from by omega]
  rw [List.drop_append_of_le_length (Nat.le_refl _), List.drop_length,
    List.nil_append]
  have h1 : p < ((l.take (p + 1)) ++ ((l.drop p).take (l.length - 1 - p))).length := by
    simp only [List.length_append, List.length_take, List.length_drop]
    omega
  have h2 : p < (l.take (p + 1)).length := by
    simp only [List.length_take]; omega
  have h3 : ¬ p < (l.take p).length := by
    simp only [List.length_take]; omega
  have h4 : p - (l.take p).length = 0 := by
    simp only [List.length_take]; omega
  rw [List.set_append, if_pos h1, List.set_append, if_pos h2,
    List.take_succ, List.getElem?_eq_getElem hp', Option.toList_some,
    List.set_append, if_neg h3, h4, List.set_cons_zero]
  have hsuf : (l.drop p).take (l.length - 1 - p) ++ [l.getLast hne] = l.drop p := by
    rw [(List.drop_take (l.length - 1) p l).symm]
    rw [← List.dropLast_eq_take]
    rw [← List.drop_append_of_le_length (by rw [List.length_dropLast]; omega)]
    rw [List.dropLast_append_getLast hne]
  rw [List.append_assoc, hsuf]
  simp

lemma emplace_elems (v : Vec α) (p : Nat) (x : α) (hp : p ≤ v.size) :
    (v.emplace p x).elems = v.elems.take p ++ x :: v.elems.drop p := by
  unfold Vec.emplace
  by_cases hend : p = v.size
  · rw [if_pos hend, emplaceBack_elems, hend]
    simp [Vec.size]
  · rw [if_neg hend]
    have hp' : p < v.size := by omega
    by_cases hroom : v.size < v.cap
    · rw [if_pos hroom]
      exact emplaceSpare_elems v p x hp'
    · rw [if_neg hroom]
      rfl

lemma emplace_size (v : Vec α) (p : Nat) (x : α) (hp : p ≤ v.size) :
    (v.emplace p x).size = v.size + 1 := by
  have hp' : p ≤ v.elems.length := hp
  simp only [Vec.size, emplace_elems v p x hp, List.length_append,
    List.length_take, List.length_cons, List.length_drop]
  omega

lemma emplace_get (v : Vec α) (p : Nat) (x : α) (hp : p ≤ v.size) :
    (v.emplace p x).get? p = some x := by
  have hsz := emplace_size v p x hp
  unfold Vec.get?
  rw [if_pos (by omega)]
  rw [emplace_elems v p x hp]
  have hp' : p ≤ v.elems.length := hp
  rw [List.getElem?_append, if_neg (by rw [List.length_take]; omega)]
  rw [show p - (v.elems.take p).length = 0 from by rw [List.length_take]; omega]
  simp

lemma erase_elems (v : Vec α) (p : Nat) (hp : p < v.size) :
    (v.erase p).elems = v.elems.take p ++ v.elems.drop (p + 1) := by
  obtain ⟨l, c⟩ := v
  have hp' : p < l.length := hp
  show ((l.take p ++ l.drop (p + 1)) ++ l.drop (l.length - 1)).dropLast
      = l.take p ++ l.drop (p + 1)
  have hlen : (l.drop (l.length - 1)).length = 1 := by
    rw [List.length_drop]; omega
  have hemp : (l.drop (l.length - 1)).isEmpty = false := by
    cases h : l.drop (l.length - 1) with
    | nil => rw [h] at hlen; simp at hlen
    | cons a t => rfl
  rw [List.dropLast_append, if_neg (by rw [hemp]; simp)]
  have hnil : (l.drop (l.length - 1)).dropLast = [] :=
    List.eq_nil_of_length_eq_zero (by rw [List.length_dropLast, hlen])
  rw [hnil, List.append_nil]

/-- Claim C6: for every valid position `p ≤ length`, `Emplace`/`Insert` at
`p` places the new element at logical position `p`, shifts the elements
previously at `[p, length)` one slot later, increments the length by one,
and the returned position (`begin() + p`) refers to the new element; in
particular a vector holding `[1,2,3,4]` becomes `[1,2,99,3,4]` of length 5
after `Insert(pos = 2, 99)`. -/
theorem emplace_insert_correct (v : Vec α) (p : Nat) (x : α) (hp : p ≤ v.size) :
    (v.emplace p x).elems = v.elems.take p ++ x :: v.elems.drop p ∧
    (v.emplace p x).size = v.size + 1 ∧
    (v.emplace p x).get? p = some x ∧
    v.insert p x = v.emplace p x :=
  ⟨emplace_elems v p x hp, emplace_size v p x hp, emplace_get v p x hp, rfl⟩

theorem emplace_insert_correct_witness :
    2 ≤ (⟨[1, 2, 3, 4], 4⟩ : Vec Nat).size ∧
    (((⟨[1, 2, 3, 4], 4⟩ : Vec Nat).emplace 2 99).elems
        = (⟨[1, 2, 3, 4], 4⟩ : Vec Nat).elems.take 2
          ++ 99 :: (⟨[1, 2, 3, 4], 4⟩ : Vec Nat).elems.drop 2 ∧
      ((⟨[1, 2, 3, 4], 4⟩ : Vec Nat).emplace 2 99).size
        = (⟨[1, 2, 3, 4], 4⟩ : Vec Nat).size + 1 ∧
      ((⟨[1, 2, 3, 4], 4⟩ : Vec Nat).emplace 2 99).get? 2 = some 99 ∧
      (⟨[1, 2, 3, 4], 4⟩ : Vec Nat).insert 2 99
        = (⟨[1, 2, 3, 4], 4⟩ : Vec Nat).emplace 2 99) ∧
    ((⟨[1, 2, 3, 4], 4⟩ : Vec Nat).emplace 2 99).elems = [1, 2, 99, 3, 4] :=
  ⟨by decide, emplace_insert_correct ⟨[1, 2, 3, 4], 4⟩ 2 99 (by decide), by decide⟩

/-- Claim C7: inserting `a[j]` (a reference into the vector itself) at
position `p` stores the pre-mutation value of `a[j]`: in every branch the
source reads the argument before any shifting or destruction of the old
buffer, so the self-insert behaves exactly like inserting the pre-read
value, in the spare-capacity path as well as the reallocation path. -/
theorem self_insert_correct [Inhabited α] (v : Vec α) (p j : Nat)
    (hp : p ≤ v.size) (hj : j < v.elems.length) :
    v.insertSelf p j = v.emplace p (v.elems.get ⟨j, hj⟩) ∧
    (v.insertSelf p j).elems
      = v.elems.take p ++ v.elems.get ⟨j, hj⟩ :: v.elems.drop p := by
  have hD : v.elems.getD j default = v.elems.get ⟨j, hj⟩ :=
    List.getD_eq_get v.elems default hj
  have key : v.insertSelf p j = v.emplace p (v.elems.get ⟨j, hj⟩) := by
    unfold Vec.insertSelf Vec.emplace
    rw [hD]
  refine ⟨key, ?_⟩
  rw [key]
  exact emplace_elems v p _ hp

theorem self_insert_correct_witness :
    1 ≤ (⟨[5, 6], 2⟩ : Vec Nat).size ∧
    ((⟨[5, 6], 2⟩ : Vec Nat).insertSelf 1 0
        = (⟨[5, 6], 2⟩ : Vec Nat).emplace 1
            ((⟨[5, 6], 2⟩ : Vec Nat).elems.get ⟨0, by decide⟩) ∧
      ((⟨[5, 6], 2⟩ : Vec Nat).insertSelf 1 0).elems
        = (⟨[5, 6], 2⟩ : Vec Nat).elems.take 1
          ++ (⟨[5, 6], 2⟩ : Vec Nat).elems.get ⟨0, by decide⟩
            :: (⟨[5, 6], 2⟩ : Vec Nat).elems.drop 1) ∧
    ((⟨[5, 6], 2⟩ : Vec Nat).insertSelf 1 0).elems = [5, 5, 6] :=
  ⟨by decide, self_insert_correct ⟨[5, 6], 2⟩ 1 0 (by decide) (by decide), by decide⟩

/-- Claim C10: on a non-empty vector, `Erase` at the last live position
`length - 1` is observably identical to `PopBack`: the shifted range
`[pos+1, size_)` is empty, so both destroy exactly the final element, leave
every other element value and the capacity unchanged, and decrement the
length by one. -/
theorem erase_last_eq_popBack (v : Vec α) (h : 0 < v.size) :
    v.erase (v.size - 1) = v.popBack ∧
    (v.erase (v.size - 1)).cap = v.cap ∧
    (v.erase (v.size - 1)).elems = v.elems.dropLast ∧
    (v.erase (v.size - 1)).size = v.size - 1 := by
  have h' : 0 < v.elems.length := h
  have hs : v.size = v.elems.length := rfl
  have hel : (v.erase (v.size - 1)).elems = v.elems.dropLast := by
    rw [erase_elems v (v.size - 1) (by omega)]
    have hdrop : v.elems.drop (v.size - 1 + 1) = [] :=
      List.drop_eq_nil_of_le (by omega)
    rw [hdrop, List.append_nil, List.dropLast_eq_take]
    rfl
  have hcap : (v.erase (v.size - 1)).cap = v.cap := rfl
  refine ⟨?_, hcap, hel, ?_⟩
  · exact Vec.extEq _ _ (by rw [hel]; rfl) hcap
  · show (v.erase (v.size - 1)).elems.length = v.size - 1
    rw [hel, List.length_dropLast, hs]

theorem erase_last_eq_popBack_witness :
    0 < (⟨[1, 2], 2⟩ : Vec Nat).size ∧
    ((⟨[1, 2], 2⟩ : Vec Nat).erase ((⟨[1, 2], 2⟩ : Vec Nat).size - 1)
        = (⟨[1, 2], 2⟩ : Vec Nat).popBack ∧
      ((⟨[1, 2], 2⟩ : Vec Nat).erase ((⟨[1, 2], 2⟩ : Vec Nat).size - 1)).cap
        = (⟨[1, 2], 2⟩ : Vec Nat).cap ∧
      ((⟨[1, 2], 2⟩ : Vec Nat).erase ((⟨[1, 2], 2⟩ : Vec Nat).size - 1)).elems
        = (⟨[1, 2], 2⟩ : Vec Nat).elems.dropLast ∧
      ((⟨[1, 2], 2⟩ : Vec Nat).erase ((⟨[1, 2], 2⟩ : Vec Nat).size - 1)).size
        = (⟨[1, 2], 2⟩ : Vec Nat).size - 1) :=
  ⟨by decide, erase_last_eq_popBack ⟨[1, 2], 2⟩ (by decide)⟩

/-! ### Instrumented model of the fallible copy paths

For an element type whose copy constructor can fail, the failure-injection
state carries `budget` — the number of copy-constructor invocations that
will still succeed before the injected failure — and `live`, a live-instance
counter incremented by every successful construction and decremented by
every destruction. -/

/-- Failure-injection and live-instance bookkeeping for copy operations. -/
structure FState where
  budget : Nat
  live : Nat
deriving DecidableEq

/-- `std::destroy_n`: destroys `n` constructed instances. -/
def destroyN (s : FState) (n : Nat) : FState := ⟨s.budget, s.live - n⟩

/-- `std::uninitialized_copy_n` over the elements `xs`: each copy
construction fails when the budget is exhausted and otherwise consumes one
budget unit and constructs one instance; if a copy fails midway, the copies
already constructed by this call are destroyed again (the guarantee of
`uninitialized_copy_n`) and the failure propagates. -/
def uninitCopyN (s : FState) : List α → FState × Option (List α)
  | [] => (s, some [])
  | x :: rest =>
    if s.budget = 0 then (s, none)
    else
      let r := uninitCopyN ⟨s.budget - 1, s.live + 1⟩ rest
      if r.2.isSome then (r.1, some (x :: r.2.getD []))
      else (⟨r.1.budget, r.1.live - 1⟩, none)

/-- `EmplaceBack`, full-storage path, copy branch (the element type is
copyable and its move construction may fail): allocate `new_data` of
capacity `growCap size_`; `new (new_data + size_) T(value)` copy-constructs
the new element (if that copy fails, nothing has been constructed and the
raw block is simply released); `uninitialized_copy_n(data_, size_, new_data)`
copies the old elements inside a `try`, whose `catch` destroys the new
element at `new_data + size_` and rethrows; on success the originals are
destroyed and the buffers swapped.  Returns (failure state, vector
afterwards, offset of the new element, or `none` on failure). -/
def Vec.emplaceBackFullCopy (v : Vec α) (x : α) (s : FState) :
    FState × Vec α × Option Nat :=
  if s.budget = 0 then (s, v, none)
  else
    let r := uninitCopyN ⟨s.budget - 1, s.live + 1⟩ v.elems
    if r.2.isSome then
      (destroyN r.1 v.size, ⟨r.2.getD [] ++ [x], growCap v.size⟩, some v.size)
    else (destroyN r.1 1, v, none)

/-- `ReallocateWithCopy(index, value)` (the `Emplace` full-storage copy
branch): allocate `new_data` of capacity `growCap size_`;
`new (new_data + index) T(value)`; then, inside one `try`,
`uninitialized_copy_n(begin(), index, new_data)` copies the prefix and
`uninitialized_copy_n(begin() + index, size_ - index, new_data + index + 1)`
copies the suffix; the `catch` destroys only the single element at
`new_data + index` and rethrows — the prefix copies are not destroyed
there, and the raw `new_data` block is released without destructor calls.
On success the originals are destroyed and the buffers swapped. -/
def Vec.reallocWithCopy (v : Vec α) (p : Nat) (x : α) (s : FState) :
    FState × Vec α × Option Nat :=
  if s.budget = 0 then (s, v, none)
  else
    let r1 := uninitCopyN ⟨s.budget - 1, s.live + 1⟩ (v.elems.take p)
    if r1.2.isSome then
      let r2 := uninitCopyN r1.1 (v.elems.drop p)
      if r2.2.isSome then
        (destroyN r2.1 v.size,
         ⟨r1.2.getD [] ++ x :: r2.2.getD [], growCap v.size⟩, some p)
      else (destroyN r2.1 1, v, none)
    else (destroyN r1.1 1, v, none)

lemma uninitCopyN_success (xs : List α) :
    ∀ s : FState, xs.length ≤ s.budget →
      uninitCopyN s xs = (⟨s.budget - xs.length, s.live + xs.length⟩, some xs) := by
  induction xs with
  | nil =>
    intro s _
    simp [uninitCopyN]
  | cons x rest ih =>
    intro s hle
    have hb : s.budget ≠ 0 := by
      simp only [List.length_cons] at hle
      omega
    have hrest : rest.length ≤ s.budget - 1 := by
      simp only [List.length_cons] at hle
      omega
    have hx := ih ⟨s.budget - 1, s.live + 1⟩ hrest
    simp only [uninitCopyN, if_neg hb, hx, Option.isSome_some, Option.getD_some,
      eq_self_iff_true, if_true, List.length_cons]
    rw [show s.budget - 1 - rest.length = s.budget - (rest.length + 1) from by omega]
    rw [show s.live + 1 + rest.length = s.live + (rest.length + 1) from by omega]

lemma uninitCopyN_fail (xs : List α) :
    ∀ s : FState, s.budget < xs.length →
      uninitCopyN s xs = (⟨0, s.live⟩, none) := by
  induction xs with
  | nil =>
    intro s h
    simp at h
  | cons x rest ih =>
    intro s hlt
    by_cases hb : s.budget = 0
    · simp only [uninitCopyN, if_pos hb]
      rw [show s = (⟨0, s.live⟩ : FState) from by
        cases s with
        | mk b l =>
          have hb2 : b = 0 := hb
          rw [hb2]]
    · have hlt2 : s.budget - 1 < rest.length := by
        simp only [List.length_cons] at hlt
        omega
      have hx := ih ⟨s.budget - 1, s.live + 1⟩ hlt2
      simp only [uninitCopyN, if_neg hb, hx, Option.isSome_none, Bool.false_eq_true,
        if_false]
      rw [show s.live + 1 - 1 = s.live from by omega]

/-- Success of the `EmplaceBack` copy growth cycle: with enough budget for
the new element plus all `size_` copies, the result is the appended vector,
and exactly one net instance (the new element) is added to the live count. -/
lemma emplaceBackFullCopy_success (v : Vec α) (x : α) (s : FState)
    (h : v.size + 1 ≤ s.budget) :
    v.emplaceBackFullCopy x s
      = (⟨s.budget - (v.size + 1), s.live + 1⟩,
          ⟨v.elems ++ [x], growCap v.size⟩, some v.size) := by
  have hb : s.budget ≠ 0 := by omega
  have hlen : v.elems.length ≤ s.budget - 1 := by
    have he : v.elems.length = v.size := rfl
    omega
  have hx := uninitCopyN_success v.elems ⟨s.budget - 1, s.live + 1⟩ hlen
  simp only [Vec.emplaceBackFullCopy, if_neg hb, hx, Option.isSome_some,
    Option.getD_some, eq_self_iff_true, if_true, destroyN]
  rw [show s.budget - 1 - v.elems.length = s.budget - (v.size + 1) from by
    have he : v.elems.length = v.size := rfl
    omega]
  rw [show s.live + 1 + v.elems.length - v.size = s.live + 1 from by
    have he : v.elems.length = v.size := rfl
    omega]

/-- Failure of the `EmplaceBack` copy growth cycle: if the injected failure
strikes (budget at most `size_`: the new element's copy or one of the
`size_` element copies fails), the vector is returned unchanged — same
length, capacity and element values — and the live-instance counter returns
exactly to its prior value: no leak, no double destruction, no partially
constructed element remains reachable. -/
lemma emplaceBackFullCopy_fail (v : Vec α) (x : α) (s : FState)
    (h : s.budget ≤ v.size) :
    v.emplaceBackFullCopy x s = (⟨0, s.live⟩, v, none) := by
  by_cases hb : s.budget = 0
  · simp only [Vec.emplaceBackFullCopy, if_pos hb]
    rw [show s = (⟨0, s.live⟩ : FState) from by
      cases s with
      | mk b l =>
        have hb2 : b = 0 := hb
        rw [hb2]]
  · have hlt : s.budget - 1 < v.elems.length := by
      have he : v.elems.length = v.size := rfl
      omega
    have hx := uninitCopyN_fail v.elems ⟨s.budget - 1, s.live + 1⟩ hlt
    simp only [Vec.emplaceBackFullCopy, if_neg hb, hx, Option.isSome_none,
      Bool.false_eq_true, if_false, destroyN]
    rw [show s.live + 1 - 1 = s.live from by omega]

theorem reallocWithCopy_leak :
    (⟨[10, 20], 2⟩ : Vec Nat).reallocWithCopy 1 10 ⟨2, 2⟩
      = (⟨0, 3⟩, ⟨[10, 20], 2⟩, none) ∧
    (⟨0, 3⟩ : FState).live ≠ (⟨2, 2⟩ : FState).live := by
  exact ⟨by decide, by decide⟩

/-- Claim C9: every modelled public operation, invoked within its documented
contract, preserves the container invariant `length ≤ capacity`, with the
elements constructed exactly at the logical positions `[0, length)` (the
checked access `get?` succeeds exactly there) — including the state observed
after a fallible growth cycle fails and rolls back. -/
theorem invariant_preserved [Inhabited α] (v w : Vec α) (n p i j : Nat) (x : α)
    (s : FState) (hv : v.WF) (hw : w.WF) (hp : p ≤ v.size) (hi : i < v.size) :
    (Vec.empty (α := α)).WF ∧
    (Vec.ofSize (α := α) n).WF ∧
    v.copyCtor.WF ∧
    (v.copyAssign w).WF ∧
    v.moveCtor.1.WF ∧
    v.moveCtor.2.WF ∧
    (v.moveAssign w).1.WF ∧
    (v.moveAssign w).2.WF ∧
    (v.swap w).1.WF ∧
    (v.swap w).2.WF ∧
    (v.reserve n).WF ∧
    (v.resize n).WF ∧
    (v.emplaceBack x).WF ∧
    v.popBack.WF ∧
    (v.emplace p x).WF ∧
    (v.erase i).WF ∧
    ((v.get? j).isSome ↔ j < v.size) ∧
    (v.emplaceBackFullCopy x s).2.1.WF := by
  have hsz : v.size = v.elems.length := rfl
  have hwsz : w.size = w.elems.length := rfl
  have hv2 : v.elems.length ≤ v.cap := hv
  have hw2 : w.elems.length ≤ w.cap := hw
  refine ⟨?_, ?_, ?_, ?_, hv, ?_, hw, hv, hw, hv, ?_, ?_, ?_, ?_, ?_, ?_, ?_, ?_⟩
  · exact Nat.le_refl 0
  · show (List.replicate n (default : α)).length ≤ n
    rw [List.length_replicate]
  · exact Nat.le_refl _
  · unfold Vec.copyAssign
    by_cases hgt : w.size > v.cap
    · rw [if_pos hgt]
      exact Nat.le_refl _
    · rw [if_neg hgt]
      by_cases hlt : w.size < v.size
      · rw [if_pos hlt]
        show ((w.elems.take (min v.size w.size) ++ v.elems.drop (min v.size w.size)).take
            w.size).length ≤ v.cap
        simp only [List.length_take, List.length_append, List.length_drop]
        omega
      · rw [if_neg hlt]
        show ((w.elems.take (min v.size w.size) ++ v.elems.drop (min v.size w.size))
            ++ w.elems.drop v.size).length ≤ v.cap
        simp only [List.length_append, List.length_take, List.length_drop]
        omega
  · show (⟨[], 0⟩ : Vec α).WF
    exact Nat.le_refl 0
  · unfold Vec.reserve
    split
    · exact hv
    · next hnle =>
      show v.elems.length ≤ n
      unfold Vec.WF at hv
      omega
  · unfold Vec.resize
    split
    · next hlt =>
      show (v.elems.take n).length ≤ v.cap
      rw [List.length_take]
      unfold Vec.WF at hv
      simp only [Nat.min_def]
      split <;> omega
    · next hnlt =>
      show ((v.reserve n).elems ++ List.replicate (n - v.size) default).length
          ≤ (v.reserve n).cap
      rw [List.length_append, List.length_replicate]
      unfold Vec.reserve
      split
      · next hle =>
        show v.elems.length + (n - v.size) ≤ v.cap
        unfold Vec.WF at hv
        omega
      · next hnle =>
        show v.elems.length + (n - v.size) ≤ n
        omega
  · unfold Vec.emplaceBack
    split
    · next hlt =>
      show (v.elems ++ [x]).length ≤ v.cap
      rw [List.length_append]
      simp only [List.length_cons, List.length_nil]
      omega
    · next hnlt =>
      show (v.elems ++ [x]).length ≤ growCap v.size
      rw [List.length_append]
      simp only [List.length_cons, List.length_nil]
      have := growCap_gt v.size
      omega
  · show v.elems.dropLast.length ≤ v.cap
    rw [List.length_dropLast]
    unfold Vec.WF at hv
    omega
  · show (v.emplace p x).size ≤ (v.emplace p x).cap
    rw [emplace_size v p x hp]
    unfold Vec.emplace
    by_cases hend : p = v.size
    · rw [if_pos hend]
      unfold Vec.emplaceBack
      split
      · next hlt => show v.size + 1 ≤ v.cap; omega
      · next hnlt =>
        show v.size + 1 ≤ growCap v.size
        have := growCap_gt v.size
        omega
    · rw [if_neg hend]
      by_cases hroom : v.size < v.cap
      · rw [if_pos hroom]
        show v.size + 1 ≤ v.cap
        omega
      · rw [if_neg hroom]
        show v.size + 1 ≤ growCap v.size
        have := growCap_gt v.size
        omega
  · show (v.erase i).elems.length ≤ v.cap
    rw [erase_elems v i hi]
    rw [List.length_append, List.length_take, List.length_drop]
    unfold Vec.WF at hv
    simp only [Nat.min_def]
    split <;> omega
  · unfold Vec.get?
    constructor
    · intro hsome
      by_cases hj : j < v.size
      · exact hj
      · rw [if_neg hj] at hsome
        simp at hsome
    · intro hj
      rw [if_pos hj]
      rw [List.getElem?_eq_getElem hj]
      rfl
  · by_cases hbud : v.size + 1 ≤ s.budget
    · rw [emplaceBackFullCopy_success v x s hbud]
      show (v.elems ++ [x]).length ≤ growCap v.size
      rw [List.length_append]
      simp only [List.length_cons, List.length_nil]
      have := growCap_gt v.size
      omega
    · rw [emplaceBackFullCopy_fail v x s (by omega)]
      exact hv

theorem invariant_preserved_witness :
    (⟨[3], 2⟩ : Vec Nat).WF ∧ (⟨[7, 8], 2⟩ : Vec Nat).WF ∧
    1 ≤ (⟨[3], 2⟩ : Vec Nat).size ∧ 0 < (⟨[3], 2⟩ : Vec Nat).size ∧
    ((Vec.empty (α := Nat)).WF ∧
     (Vec.ofSize (α := Nat) 2).WF ∧
     (⟨[3], 2⟩ : Vec Nat).copyCtor.WF ∧
     ((⟨[3], 2⟩ : Vec Nat).copyAssign ⟨[7, 8], 2⟩).WF ∧
     (⟨[3], 2⟩ : Vec Nat).moveCtor.1.WF ∧
     (⟨[3], 2⟩ : Vec Nat).moveCtor.2.WF ∧
     ((⟨[3], 2⟩ : Vec Nat).moveAssign ⟨[7, 8], 2⟩).1.WF ∧
     ((⟨[3], 2⟩ : Vec Nat).moveAssign ⟨[7, 8], 2⟩).2.WF ∧
     ((⟨[3], 2⟩ : Vec Nat).swap ⟨[7, 8], 2⟩).1.WF ∧
     ((⟨[3], 2⟩ : Vec Nat).swap ⟨[7, 8], 2⟩).2.WF ∧
     ((⟨[3], 2⟩ : Vec Nat).reserve 2).WF ∧
     ((⟨[3], 2⟩ : Vec Nat).resize 2).WF ∧
     ((⟨[3], 2⟩ : Vec Nat).emplaceBack 9).WF ∧
     (⟨[3], 2⟩ : Vec Nat).popBack.WF ∧
     ((⟨[3], 2⟩ : Vec Nat).emplace 1 9).WF ∧
     ((⟨[3], 2⟩ : Vec Nat).erase 0).WF ∧
     (((⟨[3], 2⟩ : Vec Nat).get? 0).isSome ↔ 0 < (⟨[3], 2⟩ : Vec Nat).size) ∧
     ((⟨[3], 2⟩ : Vec Nat).emplaceBackFullCopy 9 ⟨0, 1⟩).2.1.WF) :=
  ⟨by decide, by decide, by decide, by decide,
   invariant_preserved ⟨[3], 2⟩ ⟨[7, 8], 2⟩ 2 1 0 0 9 ⟨0, 1⟩
     (by decide) (by decide) (by decide) (by decide)⟩

/-! ### Storage-independence model for copy construction

To state that a copy is deep — that mutations of one vector are never
observable through the other — buffers are given addresses: a memory maps
each address to the constructed contents of its block, and every growth
cycle allocates a fresh address.  This mirrors `RawMemory` ownership: each
`Vector` owns exactly one block, a growth constructs into a freshly
allocated block, destroys the originals and swaps, and the old block is
released. -/

/-- Pointwise update of an address map. -/
def upd (f : Nat → List α) (a : Nat) (l : List α) : Nat → List α :=
  fun b => if b = a then l else f b

/-- The allocator: `next` is the next fresh address (every allocated
address is below it), `blocks` gives the constructed contents of blocks. -/
structure Mem (α : Type) where
  next : Nat
  blocks : Nat → List α

/-- A vector handle in the address model: the address of its `RawMemory`
block, its `size_`, and its capacity. -/
structure HVec where
  addr : Nat
  len : Nat
  cap : Nat
deriving DecidableEq

/-- The observable contents of a vector: the constructed elements at
`[0, len)` of its own block. -/
def readVec (m : Mem α) (v : HVec) : List α := (m.blocks v.addr).take v.len

/-- Copy constructor `Vector(const Vector&)` in the address model:
allocates a fresh block of capacity exactly `other.size_` and
copy-constructs `other`'s elements into it. -/
def hCopyCtor (m : Mem α) (v : HVec) : Mem α × HVec :=
  (⟨m.next + 1, upd m.blocks m.next (readVec m v)⟩, ⟨m.next, v.len, v.len⟩)

/-- Mutations applied in the independence experiment. -/
inductive Op (α : Type) where
  | push : α → Op α
  | pop : Op α
  | ins : Nat → α → Op α
  | ers : Nat → Op α

/-- One mutation in the address model, mirroring the source paths: an
in-capacity `PushBack`/`Insert` writes into the vector's own block; on a
full vector the new contents are constructed into a freshly allocated
block, the originals are destroyed (the old block is emptied and released)
and the storage swapped; `PopBack` and `Erase` write only the vector's own
block. -/
def applyOp (m : Mem α) (v : HVec) : Op α → Mem α × HVec
  | .push x =>
    if v.len < v.cap then
      (⟨m.next, upd m.blocks v.addr (readVec m v ++ [x])⟩,
       ⟨v.addr, v.len + 1, v.cap⟩)
    else
      (⟨m.next + 1, upd (upd m.blocks m.next (readVec m v ++ [x])) v.addr []⟩,
       ⟨m.next, v.len + 1, growCap v.len⟩)
  | .pop =>
    (⟨m.next, upd m.blocks v.addr (readVec m v).dropLast⟩,
     ⟨v.addr, v.len - 1, v.cap⟩)
  | .ins p x =>
    if v.len < v.cap then
      (⟨m.next, upd m.blocks v.addr
          ((readVec m v).take p ++ x :: (readVec m v).drop p)⟩,
       ⟨v.addr, v.len + 1, v.cap⟩)
    else
      (⟨m.next + 1, upd (upd m.blocks m.next
          ((readVec m v).take p ++ x :: (readVec m v).drop p)) v.addr []⟩,
       ⟨m.next, v.len + 1, growCap v.len⟩)
  | .ers p =>
    (⟨m.next, upd m.blocks v.addr
        ((readVec m v).take p ++ (readVec m v).drop (p + 1))⟩,
     ⟨v.addr, v.len - 1, v.cap⟩)

/-- A sequence of mutations, each applied to the vector produced by the
previous one. -/
def applyOps (m : Mem α) (v : HVec) : List (Op α) → Mem α × HVec
  | [] => (m, v)
  | op :: rest => applyOps (applyOp m v op).1 (applyOp m v op).2 rest

lemma upd_eq (f : Nat → List α) (a : Nat) (l : List α) : upd f a l a = l := by
  unfold upd
  rw [if_pos rfl]

lemma upd_ne (f : Nat → List α) (a : Nat) (l : List α) (b : Nat) (h : b ≠ a) :
    upd f a l b = f b := by
  unfold upd
  rw [if_neg h]

/-- Frame property of one mutation: a block at an allocated address other
than the mutated vector's own is untouched, and the mutated vector's block
address stays distinct from it. -/
lemma applyOp_frame (m : Mem α) (w : HVec) (op : Op α) (a : Nat)
    (ha : a ≠ w.addr) (hlt : a < m.next) :
    (applyOp m w op).1.blocks a = m.blocks a ∧
    a ≠ (applyOp m w op).2.addr ∧
    a < (applyOp m w op).1.next := by
  cases op with
  | push x =>
    by_cases hc : w.len < w.cap
    · simp only [applyOp, if_pos hc]
      exact ⟨upd_ne _ _ _ _ ha, ha, hlt⟩
    · simp only [applyOp, if_neg hc]
      refine ⟨?_, by omega, by omega⟩
      rw [upd_ne _ _ _ _ ha]
      exact upd_ne _ _ _ _ (by omega)
  | pop =>
    simp only [applyOp]
    exact ⟨upd_ne _ _ _ _ ha, ha, hlt⟩
  | ins p x =>
    by_cases hc : w.len < w.cap
    · simp only [applyOp, if_pos hc]
      exact ⟨upd_ne _ _ _ _ ha, ha, hlt⟩
    · simp only [applyOp, if_neg hc]
      refine ⟨?_, by omega, by omega⟩
      rw [upd_ne _ _ _ _ ha]
      exact upd_ne _ _ _ _ (by omega)
  | ers p =>
    simp only [applyOp]
    exact ⟨upd_ne _ _ _ _ ha, ha, hlt⟩

/-- Frame property of a mutation sequence. -/
lemma applyOps_frame (ops : List (Op α)) :
    ∀ (m : Mem α) (w : HVec) (a : Nat), a ≠ w.addr → a < m.next →
      (applyOps m w ops).1.blocks a = m.blocks a ∧
      a < (applyOps m w ops).1.next := by
  induction ops with
  | nil =>
    intro m w a _ hlt
    exact ⟨rfl, hlt⟩
  | cons op rest ih =>
    intro m w a ha hlt
    obtain ⟨h1, h2, h3⟩ := applyOp_frame m w op a ha hlt
    obtain ⟨h4, h5⟩ := ih (applyOp m w op).1 (applyOp m w op).2 a h2 h3
    constructor
    · show (applyOps (applyOp m w op).1 (applyOp m w op).2 rest).1.blocks a
        = m.blocks a
      rw [h4, h1]
    · exact h5

/-- Claim C8: copy construction yields a deep, independent copy whose
storage capacity is exactly the source's length and whose contents equal
the source's; afterwards, any sequence of pushes, pops, inserts and erases
applied to the copy leaves the original's observable contents unchanged,
and any sequence applied to the original leaves the copy's observable
contents unchanged. -/
theorem copy_deep_independent (m : Mem α) (v : HVec) (ops : List (Op α))
    (hv : v.addr < m.next) :
    (hCopyCtor m v).2.cap = v.len ∧
    readVec (hCopyCtor m v).1 (hCopyCtor m v).2 = readVec m v ∧
    readVec (hCopyCtor m v).1 v = readVec m v ∧
    readVec (applyOps (hCopyCtor m v).1 (hCopyCtor m v).2 ops).1 v = readVec m v ∧
    readVec (applyOps (hCopyCtor m v).1 v ops).1 (hCopyCtor m v).2
      = readVec (hCopyCtor m v).1 (hCopyCtor m v).2 := by
  have hne : v.addr ≠ m.next := by omega
  have hm1 : (hCopyCtor m v).1.blocks v.addr = m.blocks v.addr :=
    upd_ne _ _ _ _ hne
  refine ⟨rfl, ?_, ?_, ?_, ?_⟩
  · show ((upd m.blocks m.next (readVec m v)) m.next).take v.len = readVec m v
    rw [upd_eq]
    unfold readVec
    rw [List.take_take, Nat.min_self]
  · show ((hCopyCtor m v).1.blocks v.addr).take v.len = readVec m v
    rw [hm1]
    rfl
  · obtain ⟨hb, _⟩ := applyOps_frame ops (hCopyCtor m v).1 (hCopyCtor m v).2
      v.addr hne (by show v.addr < m.next + 1; omega)
    show ((applyOps (hCopyCtor m v).1 (hCopyCtor m v).2 ops).1.blocks v.addr).take
        v.len = readVec m v
    rw [hb, hm1]
    rfl
  · obtain ⟨hb2, _⟩ := applyOps_frame ops (hCopyCtor m v).1 v
      (hCopyCtor m v).2.addr (Ne.symm hne) (by show m.next < m.next + 1; omega)
    show ((applyOps (hCopyCtor m v).1 v ops).1.blocks (hCopyCtor m v).2.addr).take
        (hCopyCtor m v).2.len
      = readVec (hCopyCtor m v).1 (hCopyCtor m v).2
    rw [hb2]
    rfl

theorem copy_deep_independent_witness :
    (⟨0, 1, 1⟩ : HVec).addr < (⟨1, fun _ => [5]⟩ : Mem Nat).next ∧
    ((hCopyCtor (⟨1, fun _ => [5]⟩ : Mem Nat) ⟨0, 1, 1⟩).2.cap = (⟨0, 1, 1⟩ : HVec).len ∧
     readVec (hCopyCtor (⟨1, fun _ => [5]⟩ : Mem Nat) ⟨0, 1, 1⟩).1
         (hCopyCtor (⟨1, fun _ => [5]⟩ : Mem Nat) ⟨0, 1, 1⟩).2
       = readVec (⟨1, fun _ => [5]⟩ : Mem Nat) ⟨0, 1, 1⟩ ∧
     readVec (hCopyCtor (⟨1, fun _ => [5]⟩ : Mem Nat) ⟨0, 1, 1⟩).1 ⟨0, 1, 1⟩
       = readVec (⟨1, fun _ => [5]⟩ : Mem Nat) ⟨0, 1, 1⟩ ∧
     readVec (applyOps (hCopyCtor (⟨1, fun _ => [5]⟩ : Mem Nat) ⟨0, 1, 1⟩).1
         (hCopyCtor (⟨1, fun _ => [5]⟩ : Mem Nat) ⟨0, 1, 1⟩).2 [Op.push 7]).1 ⟨0, 1, 1⟩
       = readVec (⟨1, fun _ => [5]⟩ : Mem Nat) ⟨0, 1, 1⟩ ∧
     readVec (applyOps (hCopyCtor (⟨1, fun _ => [5]⟩ : Mem Nat) ⟨0, 1, 1⟩).1
         ⟨0, 1, 1⟩ [Op.push 7]).1 (hCopyCtor (⟨1, fun _ => [5]⟩ : Mem Nat) ⟨0, 1, 1⟩).2
       = readVec (hCopyCtor (⟨1, fun _ => [5]⟩ : Mem Nat) ⟨0, 1, 1⟩).1
           (hCopyCtor (⟨1, fun _ => [5]⟩ : Mem Nat) ⟨0, 1, 1⟩).2) :=
  ⟨by decide,
   copy_deep_independent (⟨1, fun _ => [5]⟩ : Mem Nat) ⟨0, 1, 1⟩ [Op.push 7] (by decide)⟩

end AdvVector
